import Mathlib

/-
Verification of the gocache repository: a shallow embedding of

  * package dll       (doublyll.go)   — intrusive doubly linked ring with sentinel,
  * package simplelru (lru_interface.go) — the single-threaded LRU cache controller,
  * package golru     — the thread-safe wrapper that defers eviction callbacks.

The dll package is embedded at the pointer level: a heap of nodes addressed by
natural-number ids, with each Go pointer field becoming an `Option Nat`.  The
simplelru controller is embedded over the abstract contents of the ring (the
list of key/value pairs from front, newest, to back, oldest), which is the
granularity at which all of its operations act; the `items` hash index, kept in
lock-step with the ring by the source, becomes lookup by key in that list.
Eviction-callback invocations are made explicit as an output log: each
operation returns, besides its result, the list of (key, value) pairs passed
to the `onEvict` callback, in invocation order.
-/

namespace GoCacheModel

/-! ## Pointer-level model of package dll (doublyll.go) -/

/-- Model of `dll.Entry`: next/prev pointers of the ring, the owning list
(identified by the id of its sentinel node, modelling the `list *LruList`
field), and the key/value payload.  The unused `ExpiresAt`/`ExpireBucket`
plumbing carries no behaviour and is omitted. -/
structure Node (K V : Type) where
  next : Option Nat
  prev : Option Nat
  list : Option Nat
  key : K
  val : V
deriving DecidableEq

/-- Heap of dll entries: a total store from node ids to nodes, plus the next
fresh id used when the source allocates a new `Entry` with `&Entry{...}`. -/
structure Heap (K V : Type) where
  store : Nat → Node K V
  fresh : Nat

/-- Model of `dll.LruList`: the id of its embedded sentinel `root` entry, and
`len`, the current length excluding the sentinel (a Go `int`). -/
structure LruList where
  root : Nat
  len : Int
deriving DecidableEq

/-- Pointwise store update, modelling an assignment through a Go pointer. -/
def updStore {K V : Type} (s : Nat → Node K V) (i : Nat) (f : Node K V → Node K V) :
    Nat → Node K V :=
  fun j => if j = i then f (s j) else s j

/-- Model of `(*LruList).Init`: `l.root.next = &l.root; l.root.prev = &l.root;
l.len = 0`. -/
def initList {K V : Type} (h : Heap K V) (l : LruList) : Heap K V × LruList :=
  (⟨updStore h.store l.root (fun nd => { nd with next := some l.root, prev := some l.root }),
    h.fresh⟩,
   { l with len := 0 })

/-- Model of `dll.NewList`: `new(LruList[K, V]).Init()` — allocate a list whose
sentinel is a zero-valued entry, then initialize it. -/
def newList {K V : Type} [Inhabited K] [Inhabited V] (h : Heap K V) : Heap K V × LruList :=
  let rootId := h.fresh
  let h1 : Heap K V :=
    ⟨updStore h.store rootId (fun _ => ⟨none, none, none, default, default⟩), h.fresh + 1⟩
  initList h1 ⟨rootId, 0⟩

/-- Model of `(*LruList).lazyInit`: initialize if `l.root.next == nil`. -/
def lazyInit {K V : Type} (h : Heap K V) (l : LruList) : Heap K V × LruList :=
  if (h.store l.root).next = none then initList h l else (h, l)

/-- Model of `(*LruList).insert`: the source's five pointer assignments in
order, followed by `l.len++`.  `entry.next = index.next` is read after
`entry.prev = index` was written, exactly as in the source; the writes
`entry.prev.next = entry` and `entry.next.prev = entry` dereference the values
`entry.prev` (= index) and `entry.next` current at that point. -/
def insertNode {K V : Type} (h : Heap K V) (l : LruList) (entry index : Nat) :
    Heap K V × LruList :=
  -- entry.prev = index
  let s1 := updStore h.store entry (fun nd => { nd with prev := some index })
  -- entry.next = index.next
  let inext := (s1 index).next
  let s2 := updStore s1 entry (fun nd => { nd with next := inext })
  -- entry.prev.next = entry
  let s3 := updStore s2 index (fun nd => { nd with next := some entry })
  -- entry.next.prev = entry
  let s4 := match inext with
    | some j => updStore s3 j (fun nd => { nd with prev := some entry })
    | none => s3
  -- entry.list = l
  let s5 := updStore s4 entry (fun nd => { nd with list := some l.root })
  (⟨s5, h.fresh⟩, { l with len := l.len + 1 })

/-- Model of `(*LruList).insertValue` (without the unused expiry argument):
allocate a fresh `Entry` holding the key and value, then `insert` it after
`index`.  Returns the new entry's id. -/
def insertValue {K V : Type} (h : Heap K V) (l : LruList) (k : K) (v : V) (index : Nat) :
    Heap K V × LruList × Nat :=
  let entry := h.fresh
  let h1 : Heap K V := ⟨updStore h.store entry (fun _ => ⟨none, none, none, k, v⟩), h.fresh + 1⟩
  let (h2, l2) := insertNode h1 l entry index
  (h2, l2, entry)

/-- Model of `(*LruList).PushFront`: lazy-init, then insert right after the
sentinel. -/
def pushFront {K V : Type} (h : Heap K V) (l : LruList) (k : K) (v : V) :
    Heap K V × LruList × Nat :=
  let (h1, l1) := lazyInit h l
  insertValue h1 l1 k v l1.root

/-- Model of `(*LruList).Remove`: unlink the entry, clear its `next`, `prev`
and `list` fields, decrement `l.len`, and return `entry.Val`.  The source
dereferences `entry.prev` and `entry.next`; a nil pointer there panics in Go
and is unreachable for a handle that is in a list, so the model leaves the
state unchanged on that junk branch. -/
def removeNode {K V : Type} (h : Heap K V) (l : LruList) (e : Nat) :
    Heap K V × LruList × V :=
  match (h.store e).prev, (h.store e).next with
  | some p, some n =>
    -- entry.prev.next = entry.next
    let s1 := updStore h.store p (fun nd => { nd with next := some n })
    -- entry.next.prev = entry.prev
    let s2 := updStore s1 n (fun nd => { nd with prev := some p })
    -- entry.next = nil; entry.prev = nil; entry.list = nil
    let s3 := updStore s2 e (fun nd => { nd with next := none, prev := none, list := none })
    (⟨s3, h.fresh⟩, { l with len := l.len - 1 }, (s3 e).val)
  | _, _ => (h, l, (h.store e).val)

/-- Model of `(*LruList).move`: no-op when `entry == index`, otherwise the
source's six pointer assignments in order.  `index.next` is read after the two
unlink writes, as in the source (this matters when `index` was the entry's
predecessor). -/
def moveNode {K V : Type} (h : Heap K V) (entry index : Nat) : Heap K V :=
  if entry = index then h
  else
    match (h.store entry).prev, (h.store entry).next with
    | some p, some n =>
      -- entry.prev.next = entry.next
      let s1 := updStore h.store p (fun nd => { nd with next := some n })
      -- entry.next.prev = entry.prev
      let s2 := updStore s1 n (fun nd => { nd with prev := some p })
      -- entry.prev = index
      let s3 := updStore s2 entry (fun nd => { nd with prev := some index })
      -- entry.next = index.next
      let inext := (s3 index).next
      let s4 := updStore s3 entry (fun nd => { nd with next := inext })
      -- entry.prev.next = entry
      let s5 := updStore s4 index (fun nd => { nd with next := some entry })
      -- entry.next.prev = entry
      let s6 := match inext with
        | some j => updStore s5 j (fun nd => { nd with prev := some entry })
        | none => s5
      ⟨s6, h.fresh⟩
    | _, _ => h

/-- Model of `(*LruList).MoveToFront`: `if entry.list != l || l.root.next ==
entry { return }; l.move(entry, &l.root)`.  The list record itself (root id
and `len`) is not touched by the source, so only the heap is returned. -/
def moveToFront {K V : Type} (h : Heap K V) (l : LruList) (e : Nat) : Heap K V :=
  if (h.store e).list ≠ some l.root ∨ (h.store l.root).next = some e then h
  else moveNode h e l.root

/-- Model of `(*Entry).PrevEntry`: `prev := e.prev; if e.list != nil && prev
!= &e.list.root { return prev }; return nil`. -/
def prevEntry {K V : Type} (h : Heap K V) (e : Nat) : Option Nat :=
  let prv := (h.store e).prev
  match (h.store e).list with
  | some lr => if prv ≠ some lr then prv else none
  | none => none

/-- Model of `(*LruList).Back`: `nil` when the list is empty, else
`l.root.prev`. -/
def back {K V : Type} (h : Heap K V) (l : LruList) : Option Nat :=
  if l.len = 0 then none else (h.store l.root).prev

/-- Empty heap over `Nat` keys and values: every id holds a zero-valued node,
no id allocated yet. -/
def heap0 : Heap Nat Nat := ⟨fun _ => ⟨none, none, none, 0, 0⟩, 0⟩

/-- A fresh list allocated in the empty heap; its sentinel gets id 0. -/
def nl0 : Heap Nat Nat × LruList := newList heap0

/-- Push (10, 100) to the front of the fresh list; the new entry gets id 1. -/
def st1 : Heap Nat Nat × LruList × Nat := pushFront nl0.1 nl0.2 10 100

/-- Push (20, 200) to the front; the new entry gets id 2, so entry 2 is the
newest (front) and entry 1 is the oldest (back). -/
def st2 : Heap Nat Nat × LruList × Nat := pushFront st1.1 st1.2.1 20 200

/-- The heap after the two pushes. -/
def h2 : Heap Nat Nat := st2.1

/-- The list record after the two pushes. -/
def l2 : LruList := st2.2.1

/-- Characterization of a well-formed ring: `ids` lists the live entries in
traversal order from `root.next` (front, newest) to `root.prev` (back,
oldest).  Zipping `root :: ids` with `ids ++ [root]` enumerates the
consecutive pairs of the ring cycle, so the `nextOf`/`prevOf` fields say that
the stored pointers realize exactly that cycle; every live entry is tagged as
belonging to this list, and `len` counts the live entries. -/
structure IsRing {K V : Type} (h : Heap K V) (l : LruList) (ids : List Nat) : Prop where
  nodup : (l.root :: ids).Nodup
  tags : ∀ e ∈ ids, (h.store e).list = some l.root
  nextOf : ∀ p ∈ (l.root :: ids).zip (ids ++ [l.root]), (h.store p.1).next = some p.2
  prevOf : ∀ p ∈ (l.root :: ids).zip (ids ++ [l.root]), (h.store p.2).prev = some p.1
  lenEq : l.len = (ids.length : Int)

/-- Positionwise pairs of two lists are members of their zip. -/
theorem mem_zip_of_get {α β : Type} (xs : List α) :
    ∀ (ys : List β) (i : Nat) (hx : i < xs.length) (hy : i < ys.length),
      (xs.get ⟨i, hx⟩, ys.get ⟨i, hy⟩) ∈ xs.zip ys := by
  induction xs with
  | nil => intro ys i hx hy; simp at hx
  | cons x xs ih =>
    intro ys i hx hy
    cases ys with
    | nil => simp at hy
    | cons y ys =>
      cases i with
      | zero => exact List.mem_cons_self _ _
      | succ j =>
        exact List.mem_cons_of_mem _ (ih ys j (by simpa using hx) (by simpa using hy))

/-- Unfolding of `prevEntry` for an entry whose `list` field is set. -/
theorem prevEntry_eq {K V : Type} (h : Heap K V) (e : Nat) (lr : Nat)
    (hl : (h.store e).list = some lr) :
    prevEntry h e = if (h.store e).prev ≠ some lr then (h.store e).prev else none := by
  unfold prevEntry
  rw [hl]

/-- C3 counterexample.  The claim reads: "previous(handle) returns the
next-older entry, and returns none exactly when the handle is the oldest
entry (the one just before the sentinel)".  In the two-entry list built by
pushing (10,100) then (20,200), entry 1 is the oldest (it is `Back`), yet
`PrevEntry` on it returns entry 2 (the newer entry), not none; and `PrevEntry`
on entry 2 returns none although entry 2 is not the oldest. -/
theorem dll_prevEntry_claim_counterexample :
    back h2 l2 = some 1 ∧ prevEntry h2 1 = some 2 ∧
    prevEntry h2 2 = none ∧ ¬back h2 l2 = some 2 := by
  decide

/-- C3 amended.  For every entry of a well-formed list (`ids` in traversal
order, newest first), `PrevEntry` returns the next-NEWER entry, and returns
none exactly when the handle is the newest entry — the one just AFTER the
sentinel in traversal order.  (`PrevEntry` is what `Keys` uses to walk from
`Back`, the oldest entry, towards newer ones.) -/
theorem dll_prevEntry_next_newer {K V : Type} (h : Heap K V) (l : LruList)
    (ids : List Nat) (ring : IsRing h l ids) (i : Nat) (hi : i < ids.length) :
    prevEntry h (ids.get ⟨i, hi⟩) =
      if h0 : i = 0 then none else some (ids.get ⟨i - 1, by omega⟩) := by
  have hlen1 : i < (l.root :: ids).length := by simp; omega
  have hlen2 : i < (ids ++ [l.root]).length := by simp; omega
  have htag : (h.store (ids.get ⟨i, hi⟩)).list = some l.root :=
    ring.tags _ (List.get_mem ids i hi)
  have hmem := mem_zip_of_get (l.root :: ids) (ids ++ [l.root]) i hlen1 hlen2
  have hprev := ring.prevOf _ hmem
  have happ : (ids ++ [l.root]).get ⟨i, hlen2⟩ = ids.get ⟨i, hi⟩ :=
    List.get_append i hi
  rw [happ] at hprev
  have hroot : l.root ∉ ids := (List.nodup_cons.mp ring.nodup).1
  rw [prevEntry_eq h _ l.root htag, hprev]
  cases i with
  | zero =>
    have : (l.root :: ids).get ⟨0, hlen1⟩ = l.root := rfl
    rw [this]
    simp
  | succ j =>
    have hj : j < ids.length := by omega
    have : (l.root :: ids).get ⟨j + 1, hlen1⟩ = ids.get ⟨j, hj⟩ := rfl
    rw [this]
    have hne : ids.get ⟨j, hj⟩ ≠ l.root := by
      intro hEq
      exact hroot (hEq ▸ List.get_mem ids j hj)
    rw [if_pos (by simpa using hne)]
    rfl

/-- Witness for the amended C3 theorem: in the concrete two-entry list, the
oldest entry 1 has `PrevEntry` equal to the newer entry 2. -/
theorem dll_prevEntry_next_newer_witness : prevEntry h2 1 = some 2 := by
  have hr : IsRing h2 l2 [2, 1] :=
    ⟨by decide, by decide, by decide, by decide, by decide⟩
  have := dll_prevEntry_next_newer h2 l2 [2, 1] hr 1 (by decide)
  simpa using this

/-- C10.  `MoveToFront` on an entry that does not belong to list `l` (its
`list` field differs from `&l`) leaves the heap — hence the length, the
traversal order and the links of all of `l`'s live entries — completely
unchanged; and an entry detached via `Remove` has its `list` reference
cleared, so a subsequent `MoveToFront` on it is again the identity on the
heap.  (`MoveToFront` never touches the list record `l` itself.) -/
theorem dll_moveToFront_foreign_frame {K V : Type} (h : Heap K V) (l : LruList)
    (e d p n : Nat)
    (hne : (h.store e).list ≠ some l.root)
    (hp : (h.store d).prev = some p) (hn : (h.store d).next = some n) :
    moveToFront h l e = h ∧
    ((removeNode h l d).1.store d).list = none ∧
    moveToFront (removeNode h l d).1 l d = (removeNode h l d).1 := by
  have hrm : ((removeNode h l d).1.store d).list = none := by
    unfold removeNode
    rw [hp, hn]
    simp [updStore]
  refine ⟨?_, hrm, ?_⟩
  · unfold moveToFront
    rw [if_pos (Or.inl hne)]
  · unfold moveToFront
    rw [if_pos (Or.inl (by rw [hrm]; simp))]

/-- Witness for C10: in the concrete two-entry heap, entry 5 is unallocated
(its `list` field is nil), so `MoveToFront` on it leaves the heap unchanged;
entry 1 is live with both links set, so removing it clears its `list` field
and a `MoveToFront` on it afterwards is the identity. -/
theorem dll_moveToFront_foreign_frame_witness :
    moveToFront h2 l2 5 = h2 ∧
    ((removeNode h2 l2 1).1.store 1).list = none ∧
    moveToFront (removeNode h2 l2 1).1 l2 1 = (removeNode h2 l2 1).1 :=
  dll_moveToFront_foreign_frame h2 l2 5 1 2 0 (by decide) (by decide) (by decide)

/-! ## Model of package simplelru (LruCache)

The controller is embedded over the abstract contents of its eviction list:
`evictList` is the list of (key, value) pairs in ring-traversal order from
`root.next` (front, newest) to `root.prev` (back, oldest).  `PushFront` is
cons, `Back` is the last element, `MoveToFront` of the entry holding a key
removes that entry and re-conses it, and the `items` index — kept in
lock-step with the list by every source path — is lookup by key.  Each
operation additionally returns the list of (key, value) pairs handed to the
`onEvict` callback (when one is configured), in invocation order. -/

/-- State of `simplelru.LruCache`: `size` is the capacity (a Go `int`), and
`evictList` the entries newest-first. -/
structure Cache (K V : Type) where
  size : Int
  evictList : List (K × V)
deriving DecidableEq

variable {K V : Type} [DecidableEq K]

/-- Lookup `lru.items[key]`: the value stored with `key`, if present. -/
def lookupVal (l : List (K × V)) (k : K) : Option V :=
  (l.find? (fun p => decide (p.1 = k))).map Prod.snd

/-- Removal of the (unique) entry holding `key` from the eviction list, as
done by `dll.Remove` on the node found through `lru.items[key]`. -/
def eraseKey (l : List (K × V)) (k : K) : List (K × V) :=
  l.eraseP (fun p => decide (p.1 = k))

/-- Model of `(*LruCache).removeOldest` combined with `removeElement`: if the
list has a back entry, unlink it, drop it from the index, and invoke the
callback with its key and value (the returned log). -/
def removeOldestLru (c : Cache K V) : Cache K V × List (K × V) :=
  match c.evictList.getLast? with
  | some pr => ({ c with evictList := c.evictList.dropLast }, [pr])
  | none => (c, [])

/-- Model of `(*LruCache).Add`.  If the key exists: `MoveToFront` of its
entry followed by `entry.Val = val` (net effect: the pair, with the new
value, is at the front and everything else keeps its order), return false.
Otherwise push a new front entry, register it, and when the length now
exceeds `size`, `removeOldest` — returning whether that eviction happened. -/
def cacheAdd (c : Cache K V) (k : K) (v : V) : Cache K V × Bool × List (K × V) :=
  match lookupVal c.evictList k with
  | some _ =>
    ({ c with evictList := (k, v) :: eraseKey c.evictList k }, false, [])
  | none =>
    let l1 : List (K × V) := (k, v) :: c.evictList
    if c.size < (l1.length : Int) then
      let (c2, log) := removeOldestLru { c with evictList := l1 }
      (c2, true, log)
    else
      ({ c with evictList := l1 }, false, [])

/-- Model of `(*LruCache).Get`: on a hit, `MoveToFront` the entry and return
its value; on a miss, no side effect. -/
def cacheGet (c : Cache K V) (k : K) : Cache K V × Option V :=
  match lookupVal c.evictList k with
  | some v => ({ c with evictList := (k, v) :: eraseKey c.evictList k }, some v)
  | none => (c, none)

/-- Model of `(*LruCache).Remove`: if present, `removeElement` — unlink,
deregister, and call the callback with the removed pair. -/
def cacheRemove (c : Cache K V) (k : K) : Cache K V × Bool × List (K × V) :=
  match lookupVal c.evictList k with
  | some v => ({ c with evictList := eraseKey c.evictList k }, true, [(k, v)])
  | none => (c, false, [])

/-- Model of `(*LruCache).Keys`: walk from `Back` through `PrevEntry`, i.e.
the keys oldest-to-newest. -/
def cacheKeys (c : Cache K V) : List K :=
  c.evictList.reverse.map Prod.fst

/-- Model of `(*LruCache).Len`: the list length. -/
def cacheLen (c : Cache K V) : Nat :=
  c.evictList.length

/-- Iterated `removeOldest`, as performed by the loop in `Resize`;
accumulates the callback log. -/
def iterRemoveOldest : Nat → Cache K V → Cache K V × List (K × V)
  | 0, c => (c, [])
  | n + 1, c =>
    let (c1, log1) := removeOldestLru c
    let (c2, log2) := iterRemoveOldest n c1
    (c2, log1 ++ log2)

/-- Model of `(*LruCache).Resize`, exactly as written in the source:
`diff := lru.Len() - size` is computed BEFORE clamping, the loop calls
`removeOldest` `diff` times (each call a no-op once the list is empty), the
clamped size is stored — and `lru.size`, the new size, is what is returned. -/
def cacheResize (c : Cache K V) (n : Int) : Cache K V × Int × List (K × V) :=
  let diff : Int := (c.evictList.length : Int) - n
  let n1 : Int := if n < 0 then 0 else n
  let (c1, log) := iterRemoveOldest diff.toNat c
  ({ c1 with size := n1 }, n1, log)

/-- Model of `simplelru.NewLru`: fails on a non-positive size, else an empty
cache of that capacity. -/
def newLru (n : Int) : Option (Cache K V) :=
  if n ≤ 0 then none else some ⟨n, []⟩

/-- Sequence of `Add` calls, accumulating the callback log. -/
def applyAdds : List (K × V) → Cache K V → Cache K V × List (K × V)
  | [], c => (c, [])
  | (k, v) :: rest, c =>
    let (c1, _, log1) := cacheAdd c k v
    let (c2, log2) := applyAdds rest c1
    (c2, log1 ++ log2)

/-- A key absent from the key column is not found. -/
theorem lookupVal_eq_none {l : List (K × V)} {k : K}
    (hk : k ∉ l.map Prod.fst) : lookupVal l k = none := by
  unfold lookupVal
  rw [List.find?_eq_none.mpr]
  · rfl
  · intro p hp hpk
    exact hk (List.mem_map.mpr ⟨p, hp, by simpa using hpk⟩)

/-- A successful lookup comes from a member pair. -/
theorem mem_of_lookupVal {l : List (K × V)} {k : K} {v : V}
    (hv : lookupVal l k = some v) : (k, v) ∈ l := by
  unfold lookupVal at hv
  cases hf : l.find? (fun p => decide (p.1 = k)) with
  | none => rw [hf] at hv; simp at hv
  | some p =>
    rw [hf] at hv
    have hp1 : p.1 = k := by simpa using List.find?_some hf
    have hp2 : p.2 = v := by simpa using hv
    have : p = (k, v) := Prod.ext hp1 hp2
    exact this ▸ List.mem_of_find?_eq_some hf

/-- Erasing a present key shortens the list by exactly one. -/
theorem length_eraseKey_of_lookup {l : List (K × V)} {k : K} {v : V}
    (hv : lookupVal l k = some v) :
    (eraseKey l k).length + 1 = l.length :=
  List.length_eraseP_add_one (mem_of_lookupVal hv) (by simp)

/-- With pairwise-distinct keys, a key is gone after erasing it. -/
theorem lookupVal_eraseKey_self {l : List (K × V)} {k : K}
    (hnd : (l.map Prod.fst).Nodup) : lookupVal (eraseKey l k) k = none := by
  induction l with
  | nil => rfl
  | cons p t ih =>
    rw [List.map_cons, List.nodup_cons] at hnd
    by_cases hp : p.1 = k
    · have : eraseKey (p :: t) k = t := List.eraseP_cons_of_pos (by simp [hp])
      rw [this]
      exact lookupVal_eq_none (hp ▸ hnd.1)
    · have : eraseKey (p :: t) k = p :: eraseKey t k :=
        List.eraseP_cons_of_neg (by simp [hp])
      rw [this]
      unfold lookupVal
      rw [List.find?_cons_of_neg _ (by simp [hp])]
      exact ih hnd.2

/-- One `Add` keeps the length within the capacity and never changes the
capacity. -/
theorem cacheAdd_len_le (c : Cache K V) (k : K) (v : V)
    (hlen : (c.evictList.length : Int) ≤ c.size) :
    ((cacheAdd c k v).1.evictList.length : Int) ≤ c.size ∧
      (cacheAdd c k v).1.size = c.size := by
  unfold cacheAdd
  cases hl : lookupVal c.evictList k with
  | some v0 =>
    simp only
    constructor
    · have := length_eraseKey_of_lookup hl
      simp only [List.length_cons]
      omega
    · trivial
  | none =>
    simp only
    by_cases hcond : c.size < ((((k, v) :: c.evictList).length : Nat) : Int)
    · rw [if_pos hcond]
      unfold removeOldestLru
      cases hgl : ((k, v) :: c.evictList).getLast? with
      | none => exact absurd (List.getLast?_eq_none.mp hgl) (by simp)
      | some pr =>
        simp only [List.length_dropLast, List.length_cons]
        constructor
        · push_cast
          omega
        · trivial
    · rw [if_neg hcond]
      simp only [List.length_cons] at hcond ⊢
      constructor
      · push_cast at hcond ⊢
        omega
      · trivial

/-- A whole sequence of `Add` calls keeps the length within the capacity. -/
theorem applyAdds_len_le (ops : List (K × V)) (c : Cache K V)
    (hlen : (c.evictList.length : Int) ≤ c.size) :
    ((applyAdds ops c).1.evictList.length : Int) ≤ c.size ∧
      (applyAdds ops c).1.size = c.size := by
  induction ops generalizing c with
  | nil => exact ⟨hlen, rfl⟩
  | cons kv rest ih =>
    obtain ⟨k, v⟩ := kv
    have hstep := cacheAdd_len_le c k v hlen
    have := ih (cacheAdd c k v).1 (hstep.2 ▸ hstep.1)
    simpa [applyAdds, hstep.2] using this

/-- C4.  For a cache constructed by `NewLru` with a positive capacity, after
any finite sequence of `Add` calls the number of held keys never exceeds the
capacity.  (`ops` ranges over all sequences, so every intermediate point of a
run is the conclusion for the corresponding prefix.) -/
theorem lru_capacity_invariant (n : Int) (c0 : Cache K V)
    (h0 : newLru n = some c0) (ops : List (K × V)) :
    ((applyAdds ops c0).1.evictList.length : Int) ≤ n := by
  unfold newLru at h0
  by_cases hn : n ≤ 0
  · rw [if_pos hn] at h0; cases h0
  · rw [if_neg hn] at h0
    have hc0 : c0 = ⟨n, []⟩ := by
      cases h0; rfl
    subst hc0
    have := applyAdds_len_le ops ⟨n, []⟩ (by simp; omega)
    exact this.1

/-- Witness for C4 at capacity 2 and three inserts. -/
theorem lru_capacity_invariant_witness :
    ((applyAdds [(1, 1), (2, 2), (3, 3)] (⟨2, []⟩ : Cache Nat Nat)).1.evictList.length : Int) ≤ 2 :=
  lru_capacity_invariant 2 ⟨2, []⟩ (by decide) [(1, 1), (2, 2), (3, 3)]

/-- C7.  Removing a present key succeeds; removing it again returns false,
leaves the cache state completely unchanged, and invokes no eviction
callback (empty log). -/
theorem lru_remove_idempotent (c : Cache K V) (k : K) (v : V)
    (hnd : (c.evictList.map Prod.fst).Nodup)
    (hv : lookupVal c.evictList k = some v) :
    (cacheRemove c k).2.1 = true ∧
    (cacheRemove (cacheRemove c k).1 k).2.1 = false ∧
    (cacheRemove (cacheRemove c k).1 k).1 = (cacheRemove c k).1 ∧
    (cacheRemove (cacheRemove c k).1 k).2.2 = [] := by
  have h1 : cacheRemove c k = ({ c with evictList := eraseKey c.evictList k }, true, [(k, v)]) := by
    unfold cacheRemove
    rw [hv]
  have h2 : lookupVal (eraseKey c.evictList k) k = none := lookupVal_eraseKey_self hnd
  have h3 : cacheRemove ({ c with evictList := eraseKey c.evictList k } : Cache K V) k =
      ({ c with evictList := eraseKey c.evictList k }, false, []) := by
    unfold cacheRemove
    rw [show lookupVal ({ c with evictList := eraseKey c.evictList k } : Cache K V).evictList k
          = none from h2]
  rw [h1]
  simp [h3]

/-- Witness for C7 on a concrete two-entry cache. -/
theorem lru_remove_idempotent_witness :
    (cacheRemove (⟨2, [(5, 50), (6, 60)]⟩ : Cache Nat Nat) 6).2.1 = true ∧
    (cacheRemove (cacheRemove (⟨2, [(5, 50), (6, 60)]⟩ : Cache Nat Nat) 6).1 6).2.1 = false ∧
    (cacheRemove (cacheRemove (⟨2, [(5, 50), (6, 60)]⟩ : Cache Nat Nat) 6).1 6).1 =
      (cacheRemove (⟨2, [(5, 50), (6, 60)]⟩ : Cache Nat Nat) 6).1 ∧
    (cacheRemove (cacheRemove (⟨2, [(5, 50), (6, 60)]⟩ : Cache Nat Nat) 6).1 6).2.2 = [] :=
  lru_remove_idempotent ⟨2, [(5, 50), (6, 60)]⟩ 6 60 (by decide) (by decide)

/-- C8.  `Add` on an already-present key reports no eviction and an empty
callback log, overwrites the value (a subsequent `Get` returns the new
value), moves the entry to the front (most-recent position, the head of the
newest-first list), and leaves both the length and the capacity unchanged. -/
theorem lru_add_update_in_place (c : Cache K V) (k : K) (v2 v1 : V)
    (hv : lookupVal c.evictList k = some v1) :
    (cacheAdd c k v2).2.1 = false ∧
    (cacheAdd c k v2).2.2 = [] ∧
    (cacheGet (cacheAdd c k v2).1 k).2 = some v2 ∧
    (cacheAdd c k v2).1.evictList.head? = some (k, v2) ∧
    (cacheAdd c k v2).1.evictList.length = c.evictList.length ∧
    (cacheAdd c k v2).1.size = c.size := by
  have h1 : cacheAdd c k v2 =
      ({ c with evictList := (k, v2) :: eraseKey c.evictList k }, false, []) := by
    unfold cacheAdd
    rw [hv]
  rw [h1]
  refine ⟨rfl, rfl, ?_, rfl, ?_, rfl⟩
  · unfold cacheGet lookupVal
    rw [List.find?_cons_of_pos _ (by simp)]
    simp
  · have := length_eraseKey_of_lookup hv
    simp only [List.length_cons]
    omega

/-- Witness for C8 on a concrete two-entry cache. -/
theorem lru_add_update_in_place_witness :
    (cacheAdd (⟨2, [(5, 50), (6, 60)]⟩ : Cache Nat Nat) 6 61).2.1 = false ∧
    (cacheAdd (⟨2, [(5, 50), (6, 60)]⟩ : Cache Nat Nat) 6 61).2.2 = [] ∧
    (cacheGet (cacheAdd (⟨2, [(5, 50), (6, 60)]⟩ : Cache Nat Nat) 6 61).1 6).2 = some 61 ∧
    (cacheAdd (⟨2, [(5, 50), (6, 60)]⟩ : Cache Nat Nat) 6 61).1.evictList.head? = some (6, 61) ∧
    (cacheAdd (⟨2, [(5, 50), (6, 60)]⟩ : Cache Nat Nat) 6 61).1.evictList.length =
      (⟨2, [(5, 50), (6, 60)]⟩ : Cache Nat Nat).evictList.length ∧
    (cacheAdd (⟨2, [(5, 50), (6, 60)]⟩ : Cache Nat Nat) 6 61).1.size =
      (⟨2, [(5, 50), (6, 60)]⟩ : Cache Nat Nat).size :=
  lru_add_update_in_place ⟨2, [(5, 50), (6, 60)]⟩ 6 61 60 (by decide)

/-- Unfolding of `cacheAdd` for a fresh key when the cache is full: the new
pair is pushed and the back entry `a` is evicted and logged. -/
theorem cacheAdd_fresh_evict (c : Cache K V) (k : K) (v : V)
    (L' : List (K × V)) (a : K × V)
    (hlv : lookupVal c.evictList k = none)
    (hL : c.evictList = L' ++ [a])
    (hfull : c.size < ((L'.length + 2 : Nat) : Int)) :
    cacheAdd c k v = ({ c with evictList := (k, v) :: L' }, true, [a]) := by
  unfold cacheAdd removeOldestLru
  rw [hlv]
  simp only
  rw [if_pos (by rw [hL]; push_cast at hfull ⊢; simpa using hfull)]
  rw [hL]
  rw [show ((k, v) :: (L' ++ [a])).getLast? = some a by
    rw [← List.cons_append]; exact List.getLast?_concat _]
  simp only
  rw [show ((k, v) :: (L' ++ [a])).dropLast = (k, v) :: L' by
    rw [← List.cons_append]; exact List.dropLast_concat]

/-- Unfolding of `cacheAdd` for a fresh key when there is room: the new pair
is pushed, nothing is evicted. -/
theorem cacheAdd_fresh_room (c : Cache K V) (k : K) (v : V)
    (hlv : lookupVal c.evictList k = none)
    (hroom : ((c.evictList.length + 1 : Nat) : Int) ≤ c.size) :
    cacheAdd c k v = ({ c with evictList := (k, v) :: c.evictList }, false, []) := by
  unfold cacheAdd
  rw [hlv]
  simp only
  rw [if_neg (by simp only [List.length_cons]; push_cast at hroom ⊢; omega)]

/-- Behaviour of a run of `Add` calls with fresh, pairwise-distinct keys over
a cache of capacity `cN ≥ 1` currently holding `L` (also distinct keys,
disjoint from the inserted ones): the final contents are the newest `cN`
entries of `ks.reverse ++ L` and the callback log is the evicted remainder,
oldest-first. -/
theorem applyAdds_fresh_spec (cN : Nat) (hc : 1 ≤ cN) :
    ∀ (ks L : List (K × V)), L.length ≤ cN →
      (ks.map Prod.fst ++ L.map Prod.fst).Nodup →
      applyAdds ks ⟨(cN : Int), L⟩ =
        (⟨(cN : Int), (ks.reverse ++ L).take cN⟩, ((ks.reverse ++ L).drop cN).reverse) := by
  intro ks
  induction ks with
  | nil =>
    intro L hL hnd
    simp [applyAdds, List.take_of_length_le hL, List.drop_eq_nil_of_le hL]
  | cons kv ks ih =>
    obtain ⟨k, v⟩ := kv
    intro L hL hnd
    have hndK : (k :: (ks.map Prod.fst ++ L.map Prod.fst)).Nodup := by
      simpa using hnd
    have hkL : k ∉ L.map Prod.fst := fun hmem =>
      (List.nodup_cons.mp hndK).1 (List.mem_append.mpr (Or.inr hmem))
    have hlv : lookupVal L k = none := lookupVal_eq_none hkL
    by_cases hfull : L.length = cN
    · -- the cache is full: this Add evicts the back entry of L
      obtain hnil | ⟨L', a, hLa⟩ := L.eq_nil_or_concat
      · rw [hnil] at hfull; simp at hfull; omega
      rw [List.concat_eq_append] at hLa
      subst hLa
      have hL'len : L'.length + 1 = cN := by simpa using hfull
      have hAdd := cacheAdd_fresh_evict (⟨(cN : Int), L' ++ [a]⟩ : Cache K V) k v L' a hlv rfl
        (by push_cast; omega)
      have hnd1 : (ks.map Prod.fst ++ ((k, v) :: L').map Prod.fst).Nodup := by
        have hperm : (ks.map Prod.fst ++ k :: (L'.map Prod.fst ++ [a.1])).Nodup :=
          List.perm_middle.symm.nodup (by simpa [List.map_append] using hndK)
        have hsub : (ks.map Prod.fst ++ (k :: L'.map Prod.fst)).Sublist
            (ks.map Prod.fst ++ (k :: (L'.map Prod.fst ++ [a.1]))) :=
          List.Sublist.append_left
            (List.Sublist.cons₂ k (List.sublist_append_left _ _)) _
        simpa using hsub.nodup hperm
      have hih := ih ((k, v) :: L') (by simpa using Nat.le_of_eq hL'len) hnd1
      have hXlen : cN ≤ (ks.reverse ++ ((k, v) :: L')).length := by
        simp
        omega
      have hY : ((k, v) :: ks).reverse ++ (L' ++ [a]) =
          (ks.reverse ++ ((k, v) :: L')) ++ [a] := by
        simp
      rw [show applyAdds ((k, v) :: ks) (⟨(cN : Int), L' ++ [a]⟩ : Cache K V) =
            ((applyAdds ks ((cacheAdd (⟨(cN : Int), L' ++ [a]⟩ : Cache K V) k v).1)).1,
              (cacheAdd (⟨(cN : Int), L' ++ [a]⟩ : Cache K V) k v).2.2 ++
                (applyAdds ks ((cacheAdd (⟨(cN : Int), L' ++ [a]⟩ : Cache K V) k v).1)).2)
          from rfl]
      rw [hAdd]
      simp only
      rw [hih]
      simp only
      rw [hY, List.take_append_of_le_length hXlen, List.drop_append_of_le_length hXlen,
        List.reverse_concat]
      rfl
    · -- there is room: this Add pushes without evicting
      have hroom : L.length < cN := Nat.lt_of_le_of_ne hL hfull
      have hAdd := cacheAdd_fresh_room (⟨(cN : Int), L⟩ : Cache K V) k v hlv
        (by push_cast; omega)
      have hnd1 : (ks.map Prod.fst ++ ((k, v) :: L).map Prod.fst).Nodup := by
        simpa using List.perm_middle.symm.nodup hndK
      have hih := ih ((k, v) :: L) (by simpa using hroom) hnd1
      have hX : ks.reverse ++ ((k, v) :: L) = ((k, v) :: ks).reverse ++ L := by
        simp
      rw [show applyAdds ((k, v) :: ks) (⟨(cN : Int), L⟩ : Cache K V) =
            ((applyAdds ks ((cacheAdd (⟨(cN : Int), L⟩ : Cache K V) k v).1)).1,
              (cacheAdd (⟨(cN : Int), L⟩ : Cache K V) k v).2.2 ++
                (applyAdds ks ((cacheAdd (⟨(cN : Int), L⟩ : Cache K V) k v).1)).2)
          from rfl]
      rw [hAdd]
      simp only
      rw [hih, hX]
      simp

/-- C5.  Inserting `cN + M` pairwise-distinct keys (M > 0) into an empty
cache of capacity `cN` hands to the eviction callback exactly the `M` oldest
inserted pairs, in insertion order, with the matching key and value — M
invocations in total. -/
theorem lru_eviction_correct (cN M : Nat) (hc : 1 ≤ cN) (hM : 0 < M)
    (ks : List (K × V)) (hlen : ks.length = cN + M)
    (hnd : (ks.map Prod.fst).Nodup) (c0 : Cache K V)
    (h0 : newLru (cN : Int) = some c0) :
    (applyAdds ks c0).2 = ks.take M ∧ (applyAdds ks c0).2.length = M := by
  have hc0 : c0 = ⟨(cN : Int), []⟩ := by
    unfold newLru at h0
    rw [if_neg (by push_cast; omega)] at h0
    cases h0
    rfl
  subst hc0
  have hspec := applyAdds_fresh_spec cN hc ks [] (by simp) (by simpa using hnd)
  have hlog : (applyAdds ks (⟨(cN : Int), []⟩ : Cache K V)).2 = ks.take M := by
    rw [hspec]
    simp only [List.append_nil]
    rw [List.drop_reverse, List.reverse_reverse]
    congr 1
    omega
  exact ⟨hlog, by rw [hlog]; simp [List.length_take]; omega⟩

/-- Witness for C5: capacity 1, two distinct inserts evict exactly the first
pair. -/
theorem lru_eviction_correct_witness :
    (applyAdds [(0, 10), (1, 11)] (⟨1, []⟩ : Cache Nat Nat)).2 = [(0, 10)] ∧
    (applyAdds [(0, 10), (1, 11)] (⟨1, []⟩ : Cache Nat Nat)).2.length = 1 := by
  have := lru_eviction_correct 1 1 (by decide) (by decide) [(0, 10), (1, 11)]
    (by decide) (by decide) ⟨1, []⟩ (by decide)
  simpa using this

/-- C6.  Inserting distinct keys `k0, t...` in order with no capacity
overflow makes `Keys` return them oldest-to-newest in insertion order; a
subsequent `Get` of the first key `k0` moves it to the last (most-recent)
position and keeps the relative order of all other keys. -/
theorem lru_recency_order (cN : Nat) (k0 : K) (v0 : V) (t : List (K × V))
    (hc : 1 ≤ cN) (hlen : t.length + 1 ≤ cN)
    (hnd : (((k0, v0) :: t).map Prod.fst).Nodup) (c0 : Cache K V)
    (h0 : newLru (cN : Int) = some c0) :
    cacheKeys (applyAdds ((k0, v0) :: t) c0).1 = ((k0, v0) :: t).map Prod.fst ∧
    cacheKeys (cacheGet (applyAdds ((k0, v0) :: t) c0).1 k0).1 =
      (t.map Prod.fst) ++ [k0] := by
  have hc0 : c0 = ⟨(cN : Int), []⟩ := by
    unfold newLru at h0
    rw [if_neg (by push_cast; omega)] at h0
    cases h0
    rfl
  subst hc0
  have hk0 : k0 ∉ t.map Prod.fst := by
    rw [List.map_cons] at hnd
    exact (List.nodup_cons.mp hnd).1
  have hspec := applyAdds_fresh_spec cN hc ((k0, v0) :: t) [] (by simp)
    (by simpa using hnd)
  have hstate : (applyAdds ((k0, v0) :: t) (⟨(cN : Int), []⟩ : Cache K V)).1 =
      ⟨(cN : Int), t.reverse ++ [(k0, v0)]⟩ := by
    rw [hspec]
    simp only [List.append_nil]
    rw [List.take_of_length_le (by simp; omega), List.reverse_cons]
  have hmiss : ∀ p ∈ t.reverse, ¬(fun q : K × V => decide (q.1 = k0)) p = true := by
    intro p hp hpk
    exact hk0 (List.mem_map.mpr ⟨p, List.mem_reverse.mp hp, by simpa using hpk⟩)
  have hfind : (t.reverse ++ [(k0, v0)]).find? (fun p => decide (p.1 = k0)) =
      some (k0, v0) := by
    rw [List.find?_append, List.find?_eq_none.mpr hmiss,
      List.find?_cons_of_pos _ (by simp)]
    rfl
  have hGet : cacheGet (⟨(cN : Int), t.reverse ++ [(k0, v0)]⟩ : Cache K V) k0 =
      (⟨(cN : Int), (k0, v0) :: t.reverse⟩, some v0) := by
    unfold cacheGet lookupVal eraseKey
    rw [hfind]
    simp only [Option.map_some]
    rw [List.eraseP_append_right _ hmiss]
    rw [List.eraseP_cons_of_pos (by simp)]
    simp
  constructor
  · rw [hstate]
    simp [cacheKeys, List.reverse_concat]
  · rw [hstate, hGet]
    simp [cacheKeys]

/-- Witness for C6: capacity 3, inserting keys 7, 8, 9 yields Keys = [7,8,9];
after Get(7), Keys = [8,9,7]. -/
theorem lru_recency_order_witness :
    cacheKeys (applyAdds [(7, 70), (8, 80), (9, 90)] (⟨3, []⟩ : Cache Nat Nat)).1 =
      [7, 8, 9] ∧
    cacheKeys (cacheGet (applyAdds [(7, 70), (8, 80), (9, 90)]
        (⟨3, []⟩ : Cache Nat Nat)).1 7).1 = [8, 9, 7] := by
  have := lru_recency_order 3 7 70 [(8, 80), (9, 90)] (by decide) (by decide)
    (by decide) ⟨3, []⟩ (by decide)
  simpa using this

/-- A cache of capacity 3 filled with the three entries (1,1), (2,2), (3,3),
oldest first. -/
def cache3 : Cache Nat Nat := (applyAdds [(1, 1), (2, 2), (3, 3)] ⟨3, []⟩).1

/-- C1 (code bug).  `Resize` does evict exactly `length − max(n, 0)` entries
oldest-first (clamping a negative target to zero), with one callback per
evicted entry — but it RETURNS `lru.size`, the new clamped capacity, not the
evicted count: on a cache holding 3 entries, `Resize(1)` evicts 2 entries yet
returns 1, and `Resize(-5)` evicts all 3 yet returns 0, contradicting the
source's own doc comments ("returning number evicted"). -/
theorem lru_resize_returns_size_not_evicted :
    (cacheResize cache3 1).2.1 = 1 ∧
    (cacheResize cache3 1).2.2 = [(1, 1), (2, 2)] ∧
    (cacheResize cache3 1).1.evictList = [(3, 3)] ∧
    (cacheResize cache3 1).1.size = 1 ∧
    (cacheResize cache3 (-5)).2.1 = 0 ∧
    (cacheResize cache3 (-5)).2.2 = [(1, 1), (2, 2), (3, 3)] ∧
    (cacheResize cache3 (-5)).1.size = 0 := by
  decide

/-! ## Model of package golru (the thread-safe wrapper)

Each wrapper operation is modelled as a function returning: the wrapper state
at the moment the exclusive lock is released, the operation's return value,
and the list of (key, value) pairs delivered to the user's callback after the
unlock, in delivery order.  When a callback is configured
(`NewLruWithEvict` with a non-nil callback), the underlying controller's
`onEvict` is the buffer-appending hook, so the controller's eviction log is
appended to the scratch buffers during the locked region. -/

/-- State of `golru.Cache`: the wrapped controller, the scratch buffers
`keysEvicted`/`valsEvicted`, and whether a user callback is configured
(`onEvictCb != nil`). -/
structure GCache (K V : Type) where
  lru : Cache K V
  keysEvicted : List K
  valsEvicted : List V
  hasCb : Bool
deriving DecidableEq

/-- Model of `golru.NewLruWithEvict`: hook the buffers iff a callback is
given, then construct the controller (failing for non-positive sizes). -/
def newLruWithEvict (n : Int) (hasCb : Bool) : Option (GCache K V) :=
  (newLru n).map (fun lru => ⟨lru, [], [], hasCb⟩)

/-- Appending a controller eviction log to the scratch buffers — the effect
of the hooked `(*Cache).onEvict` during the locked region; without a
configured callback the controller runs with a nil `onEvict` and the buffers
stay untouched. -/
def bufAppend (c : GCache K V) (log : List (K × V)) : GCache K V :=
  if c.hasCb then
    { c with keysEvicted := c.keysEvicted ++ log.map Prod.fst,
             valsEvicted := c.valsEvicted ++ log.map Prod.snd }
  else c

/-- Model of `(*Cache).Add`: under the lock run the controller `Add`; when a
callback is configured and an eviction occurred, read `keysEvicted[0]` /
`valsEvicted[0]` (Go zero value if the buffer were empty, where Go would
panic), truncate both buffers to length 0, unlock, then deliver that single
pair. -/
def gAdd [Inhabited K] [Inhabited V] (c : GCache K V) (k : K) (v : V) :
    GCache K V × Bool × List (K × V) :=
  let (lru1, evicted, log) := cacheAdd c.lru k v
  let c1 := bufAppend { c with lru := lru1 } log
  if c1.hasCb && evicted then
    let k0 := c1.keysEvicted.headD default
    let v0 := c1.valsEvicted.headD default
    ({ c1 with keysEvicted := [], valsEvicted := [] }, evicted, [(k0, v0)])
  else
    (c1, evicted, [])

/-- Model of `(*Cache).Resize`: under the lock run the controller `Resize`;
when a callback is configured and the RETURNED value is positive, swap out
both buffers (resetting them) and after unlocking deliver the captured
pairs in order.  The guard tests the controller's return value — which, by
the `Resize` bug, is the new clamped size rather than the evicted count. -/
def gResize (c : GCache K V) (n : Int) : GCache K V × Int × List (K × V) :=
  let (lru1, evicted, log) := cacheResize c.lru n
  let c1 := bufAppend { c with lru := lru1 } log
  if c1.hasCb && decide (0 < evicted) then
    ({ c1 with keysEvicted := [], valsEvicted := [] }, evicted,
      c1.keysEvicted.zip c1.valsEvicted)
  else
    (c1, evicted, [])

/-- A wrapper cache of capacity 2 with a configured callback, after adding
(1,10) and (2,20) (no evictions, so both buffers are empty). -/
def gDemo : GCache Nat Nat :=
  (gAdd (gAdd ⟨⟨2, []⟩, [], [], true⟩ 1 10).1 2 20).1

/-- C2 (code bug).  Resizing the full two-entry wrapper cache to 0 evicts
both entries inside the locked region, so both pairs are captured in the
scratch buffers — but because the controller's `Resize` returns the new size
(here 0) instead of the evicted count, the wrapper's `evicted > 0` guard
fails: at the moment the lock is released the buffers still hold both
captured pairs (violating "cleared before the lock is released"), and no
captured pair is ever delivered to the callback (violating "delivered
exactly once"). -/
theorem golru_resize_buffer_leak :
    (newLruWithEvict 2 true : Option (GCache Nat Nat)) =
      some ⟨⟨2, []⟩, [], [], true⟩ ∧
    gDemo.keysEvicted = [] ∧ gDemo.valsEvicted = [] ∧
    gDemo.lru.evictList = [(2, 20), (1, 10)] ∧
    (gResize gDemo 0).1.keysEvicted = [1, 2] ∧
    (gResize gDemo 0).1.valsEvicted = [10, 20] ∧
    (gResize gDemo 0).2.2 = [] := by
  decide

/-! ## Lock-discipline traces of the golru read operations

Each read operation of the wrapper is a straight-line sequence of atomic
events — lock acquisitions/releases and the single call into the wrapped
controller — transcribed directly from the source.  `Contains` and `Peek`
use `RLock()` with `defer RUnlock()`, so the controller call sits between
acquire and release; `Get` uses `Lock()` with `defer Unlock()`.  But
`GetOldest`, `Keys`, `Vals` and `Len` call `RLock()` immediately followed by
`RUnlock()` (no `defer`), and only then call the controller. -/

/-- Atomic events of a wrapper operation: shared (read) lock acquire and
release, exclusive (write) lock acquire and release, and the call into the
wrapped controller. -/
inductive LockEvt
  | rLock
  | rUnlock
  | wLock
  | wUnlock
  | ctrlCall
deriving DecidableEq

/-- Trace of `(*Cache).Contains`: `RLock(); defer RUnlock(); return
c.lru.Contains(key)`. -/
def containsTrace : List LockEvt := [.rLock, .ctrlCall, .rUnlock]

/-- Trace of `(*Cache).Peek`: `RLock(); defer RUnlock(); return
c.lru.Peek(key)`. -/
def peekTrace : List LockEvt := [.rLock, .ctrlCall, .rUnlock]

/-- Trace of `(*Cache).Get`: `Lock(); defer Unlock(); return
c.lru.Get(key)`. -/
def getTrace : List LockEvt := [.wLock, .ctrlCall, .wUnlock]

/-- Trace of `(*Cache).GetOldest`: `RLock(); RUnlock(); return
c.lru.GetOldest()` — no defer, the lock is released before the read. -/
def getOldestTrace : List LockEvt := [.rLock, .rUnlock, .ctrlCall]

/-- Trace of `(*Cache).Keys`: `RLock(); RUnlock(); return c.lru.Keys()`. -/
def keysTrace : List LockEvt := [.rLock, .rUnlock, .ctrlCall]

/-- Trace of `(*Cache).Vals`: `RLock(); RUnlock(); return c.lru.Vals()`. -/
def valsTrace : List LockEvt := [.rLock, .rUnlock, .ctrlCall]

/-- Trace of `(*Cache).Len`: `RLock(); RUnlock(); return c.lru.Len()`. -/
def lenTrace : List LockEvt := [.rLock, .rUnlock, .ctrlCall]

/-- Whether every controller call in the trace happens while the lock of the
given acquire/release kind is held (`d` is the current hold depth). -/
def callsLocked (acq rel : LockEvt) : List LockEvt → Nat → Bool
  | [], _ => true
  | e :: rest, d =>
    if e = LockEvt.ctrlCall then decide (0 < d) && callsLocked acq rel rest d
    else if e = acq then callsLocked acq rel rest (d + 1)
    else if e = rel then callsLocked acq rel rest (d - 1)
    else callsLocked acq rel rest d

/-- Whether every controller call happens under the shared (read) lock. -/
def readHeld (t : List LockEvt) : Bool := callsLocked .rLock .rUnlock t 0

/-- Whether every controller call happens under the exclusive lock. -/
def writeHeld (t : List LockEvt) : Bool := callsLocked .wLock .wUnlock t 0

/-- C9 (code bug).  `Contains` and `Peek` do perform their controller read
under the shared lock, and `Get` performs its call under the exclusive lock —
but `GetOldest`, `Keys`, `Vals` and `Len` release the read lock immediately
after acquiring it (missing `defer`) and perform the controller read with no
lock held, contradicting the claim for those four operations. -/
theorem golru_reads_outside_lock :
    readHeld containsTrace = true ∧ readHeld peekTrace = true ∧
    writeHeld getTrace = true ∧
    readHeld getOldestTrace = false ∧ readHeld keysTrace = false ∧
    readHeld valsTrace = false ∧ readHeld lenTrace = false := by
  decide

end GoCacheModel
